import Mathlib

/-!
Verification of the VRP/TSP data-handling fragment of the repository:
distance-matrix construction (`instances/tai150a/experiments/exp001/utils.py`,
`instances/tsp/src/tsp_utils.py`), sub-instance extraction
(`TSPDataExtractor.extract_tsp_subset`), tour reconstruction and subtour
repair (`instances/tsp/src/tsp_mip.py`), and the COMMENT-header field
extractors of `VRPDataReader`.

Coordinates are modelled as exact rationals and the floating-point square
root as the exact real square root, so that the two rounding rules
(ROUND_HALF_UP via `Decimal.quantize`, and the Python built-in `round`,
which rounds half to even) can be stated and compared exactly.
Fallible code paths (KeyError / IndexError) are modelled with `Option`.
-/

namespace VrpTsp

/-- Squared Euclidean distance between two coordinate pairs; embeds
`(x2 - x1)**2 + (y2 - y1)**2` inside the distance loops of
`VRPDataReader.compute_distance_matrix` and `load_tsp_instance`. -/
def sqDist (p q : ℚ × ℚ) : ℚ :=
  (q.1 - p.1) ^ 2 + (q.2 - p.2) ^ 2

/-- Auxiliary quantity `⌊2·√s⌋` (for `0 ≤ s`), computed exactly over `ℚ`.
Both rounding rules for `√s` are expressed through it. -/
def twiceSqrtFloor (s : ℚ) : ℕ :=
  Nat.sqrt (⌊4 * s⌋).toNat

/-- Half-up rounding of `√s` to a natural number, i.e. `⌊√s + 1/2⌋`.  Embeds
`int(Decimal(str(distance)).quantize(..., rounding=ROUND_HALF_UP))`
applied to `distance = np.sqrt(s)` in `VRPDataReader.compute_distance_matrix`
(`utils.py` line 98). -/
def roundHalfUpSqrt (s : ℚ) : ℕ :=
  (twiceSqrtFloor s + 1) / 2

/-- Round-half-to-even (bankers rounding) of `√s` to a natural number.
Embeds the Python built-in `round(distance)` applied to
`distance = np.sqrt(s)` in `load_tsp_instance` (`tsp_utils.py` line 179).
A tie `√s = m + 1/2` happens exactly when `4·s` is an odd perfect square,
i.e. when `⌊2√s⌋` is odd and `4·s = ⌊2√s⌋²`; in that case the result is the
even one of `m`, `m + 1`; otherwise it agrees with half-up rounding. -/
def roundHalfEvenSqrt (s : ℚ) : ℕ :=
  if twiceSqrtFloor s % 2 = 1 ∧ 4 * s = (twiceSqrtFloor s : ℚ) ^ 2 then
    if (twiceSqrtFloor s / 2) % 2 = 0 then twiceSqrtFloor s / 2
    else twiceSqrtFloor s / 2 + 1
  else (twiceSqrtFloor s + 1) / 2

/-- Statement that `d` is the half-up rounding of the true Euclidean
distance `√s`: equivalently `(2d - 1)² ≤ 4s < (2d + 1)²`, the lower bound
being vacuous for `d = 0` (where instead `4s < 1`). -/
def HalfUpRoundOfSqrt (d : ℕ) (s : ℚ) : Prop :=
  (d = 0 → 4 * s < 1) ∧ (1 ≤ d → (2 * (d : ℚ) - 1) ^ 2 ≤ 4 * s) ∧
    4 * s < (2 * (d : ℚ) + 1) ^ 2

lemma twiceSqrtFloor_bounds {s : ℚ} (hs : 0 ≤ s) :
    ((twiceSqrtFloor s : ℚ)) ^ 2 ≤ 4 * s ∧
      4 * s < ((twiceSqrtFloor s : ℚ) + 1) ^ 2 := by
  have h0 : (0 : ℚ) ≤ 4 * s := by linarith
  have hfl : (0 : ℤ) ≤ ⌊4 * s⌋ := Int.floor_nonneg.mpr h0
  have htn : (((⌊4 * s⌋).toNat : ℤ)) = ⌊4 * s⌋ := Int.toNat_of_nonneg hfl
  have h1 : twiceSqrtFloor s ^ 2 ≤ (⌊4 * s⌋).toNat := Nat.sqrt_le' _
  have h2 : (⌊4 * s⌋).toNat < (twiceSqrtFloor s + 1) ^ 2 := Nat.lt_succ_sqrt' _
  have hle : ((⌊4 * s⌋ : ℚ)) ≤ 4 * s := Int.floor_le _
  have hlt : 4 * s < (⌊4 * s⌋ : ℚ) + 1 := Int.lt_floor_add_one _
  have hcast : (((⌊4 * s⌋).toNat : ℚ)) = ((⌊4 * s⌋ : ℚ)) := by
    exact_mod_cast congrArg (fun z : ℤ => (z : ℚ)) htn
  constructor
  · have : ((twiceSqrtFloor s : ℚ)) ^ 2 ≤ (((⌊4 * s⌋).toNat : ℚ)) := by
      exact_mod_cast h1
    calc ((twiceSqrtFloor s : ℚ)) ^ 2 ≤ (((⌊4 * s⌋).toNat : ℚ)) := this
      _ = ((⌊4 * s⌋ : ℚ)) := hcast
      _ ≤ 4 * s := hle
  · have h3 : (⌊4 * s⌋).toNat + 1 ≤ (twiceSqrtFloor s + 1) ^ 2 := h2
    have h4 : (((⌊4 * s⌋).toNat : ℚ)) + 1 ≤ ((twiceSqrtFloor s : ℚ) + 1) ^ 2 := by
      exact_mod_cast h3
    calc 4 * s < ((⌊4 * s⌋ : ℚ)) + 1 := hlt
      _ = (((⌊4 * s⌋).toNat : ℚ)) + 1 := by rw [hcast]
      _ ≤ ((twiceSqrtFloor s : ℚ) + 1) ^ 2 := h4

lemma roundHalfUpSqrt_spec (s : ℚ) (hs : 0 ≤ s) :
    HalfUpRoundOfSqrt (roundHalfUpSqrt s) s := by
  obtain ⟨hlo, hhi⟩ := twiceSqrtFloor_bounds hs
  set k := twiceSqrtFloor s with hk
  have hd : roundHalfUpSqrt s = (k + 1) / 2 := rfl
  rcases Nat.even_or_odd k with ⟨m, hm⟩ | ⟨m, hm⟩
  · have hdm : roundHalfUpSqrt s = m := by omega
    refine ⟨?_, ?_, ?_⟩
    · intro h0
      have hk0 : k = 0 := by omega
      have : ((k : ℚ)) = 0 := by exact_mod_cast hk0
      rw [this] at hhi
      nlinarith [hhi]
    · intro h1
      have hm1 : 1 ≤ m := by omega
      have hkq : ((k : ℚ)) = 2 * (m : ℚ) := by
        have : (k : ℚ) = ((m + m : ℕ) : ℚ) := by exact_mod_cast congrArg (fun n : ℕ => (n : ℚ)) hm
        push_cast at this
        linarith
      rw [hdm]
      rw [hkq] at hlo
      have hmq : (1 : ℚ) ≤ (m : ℚ) := by exact_mod_cast hm1
      nlinarith [hlo]
    · rw [hdm]
      have hkq : ((k : ℚ)) = 2 * (m : ℚ) := by
        have : (k : ℚ) = ((m + m : ℕ) : ℚ) := by exact_mod_cast congrArg (fun n : ℕ => (n : ℚ)) hm
        push_cast at this
        linarith
      rw [hkq] at hhi
      nlinarith [hhi]
  · have hdm : roundHalfUpSqrt s = m + 1 := by omega
    have hkq : ((k : ℚ)) = 2 * (m : ℚ) + 1 := by
      have : (k : ℚ) = ((2 * m + 1 : ℕ) : ℚ) := by exact_mod_cast congrArg (fun n : ℕ => (n : ℚ)) hm
      push_cast at this
      linarith
    refine ⟨?_, ?_, ?_⟩
    · intro h0
      omega
    · intro _
      rw [hdm]
      rw [hkq] at hlo
      push_cast
      nlinarith [hlo]
    · rw [hdm]
      rw [hkq] at hhi
      push_cast
      nlinarith [hhi]

lemma roundHalfEvenSqrt_eq_of_no_tie (s : ℚ)
    (h : ∀ m : ℕ, 4 * s ≠ (2 * (m : ℚ) + 1) ^ 2) :
    roundHalfEvenSqrt s = roundHalfUpSqrt s := by
  unfold roundHalfEvenSqrt roundHalfUpSqrt
  rw [if_neg]
  rintro ⟨hk1, hk2⟩
  refine h (twiceSqrtFloor s / 2) ?_
  have hodd : twiceSqrtFloor s = 2 * (twiceSqrtFloor s / 2) + 1 := by omega
  have hq : ((twiceSqrtFloor s : ℚ)) = 2 * ((twiceSqrtFloor s / 2 : ℕ) : ℚ) + 1 := by
    exact_mod_cast congrArg (fun n : ℕ => (n : ℚ)) hodd
  rw [hk2, hq]

/-- Sequence a list of `Option`s: `some` of the list of contents when every
entry is present, `none` as soon as one lookup failed.  This is how a Python
loop that performs dict lookups (raising `KeyError`) or index accesses
(raising `IndexError`) while building a list is embedded. -/
def optList {α : Type} : List (Option α) → Option (List α)
  | [] => some []
  | none :: _ => none
  | some a :: xs => (optList xs).map fun l => a :: l

lemma optList_length {α : Type} :
    ∀ {L : List (Option α)} {l : List α}, optList L = some l → l.length = L.length := by
  intro L
  induction L with
  | nil =>
    intro l h
    simp [optList] at h
    simp [← h]
  | cons x xs ih =>
    intro l h
    rcases x with _ | a
    · simp [optList] at h
    · cases hxs : optList xs with
      | none => rw [optList, hxs] at h; simp at h
      | some m =>
        rw [optList, hxs] at h
        simp at h
        rw [← h]
        simp [ih hxs]

lemma optList_get? {α : Type} :
    ∀ {L : List (Option α)} {l : List α}, optList L = some l →
      ∀ k, L.get? k = (l.get? k).map some := by
  intro L
  induction L with
  | nil =>
    intro l h k
    simp [optList] at h
    subst h
    simp
  | cons x xs ih =>
    intro l h k
    rcases x with _ | a
    · simp [optList] at h
    · cases hxs : optList xs with
      | none => rw [optList, hxs] at h; simp at h
      | some m =>
        rw [optList, hxs] at h
        simp at h
        rw [← h]
        cases k with
        | zero => simp
        | succ k => simpa using ih hxs k

lemma optList_eq_none {α : Type} :
    ∀ {L : List (Option α)}, none ∈ L → optList L = none := by
  intro L
  induction L with
  | nil => intro h; simp at h
  | cons x xs ih =>
    intro h
    rcases List.mem_cons.mp h with hx | hxs
    · rw [← hx]
      simp [optList]
    · rcases x with _ | a
      · simp [optList]
      · rw [optList, ih hxs]
        simp

lemma optList_isSome_of_mem {α : Type} :
    ∀ {L : List (Option α)} {l : List α}, optList L = some l →
      ∀ {x}, x ∈ L → x.isSome := by
  intro L l h x hx
  rcases x with _ | a
  · rw [optList_eq_none hx] at h
    cases h
  · rfl

/-- Entry read-out of a matrix represented as a list of rows, with the numpy
in-bounds behaviour (all uses in the theorems are guarded by bounds). -/
def entryOf (m : List (List ℕ)) (i j : ℕ) : ℕ :=
  (m.getD i []).getD j 0

/-- Build an `n × n` matrix of naturals from a fallible entry function,
failing if any entry lookup failed. -/
def matrixOf (n : ℕ) (entry : ℕ → ℕ → Option ℕ) : Option (List (List ℕ)) :=
  optList ((List.range n).map fun i => optList ((List.range n).map fun j => entry i j))

lemma matrixOf_entry {n : ℕ} {entry : ℕ → ℕ → Option ℕ} {m : List (List ℕ)}
    (h : matrixOf n entry = some m) {i j : ℕ} (hi : i < n) (hj : j < n) :
    entry i j = some (entryOf m i j) := by
  have houter := optList_get? h i
  rw [List.get?_map, List.get?_range hi] at houter
  cases hmi : m.get? i with
  | none =>
    rw [hmi] at houter
    simp at houter
  | some row =>
    rw [hmi] at houter
    simp only [Option.map_some'] at houter
    have hrow : optList ((List.range n).map fun j => entry i j) = some row :=
      Option.some.inj houter
    have hinner := optList_get? hrow j
    rw [List.get?_map, List.get?_range hj] at hinner
    cases hrj : row.get? j with
    | none =>
      rw [hrj] at hinner
      simp at hinner
    | some v =>
      rw [hrj] at hinner
      simp only [Option.map_some'] at hinner
      have hv : entry i j = some v := Option.some.inj hinner
      have h1 : m.getD i [] = row := by
        show (m.get? i).getD [] = row
        rw [hmi]
        rfl
      have h2 : row.getD j 0 = v := by
        show (row.get? j).getD 0 = v
        rw [hrj]
        rfl
      rw [hv]
      unfold entryOf
      rw [h1, h2]

/-- Entry of the VRP distance matrix: `0` on the diagonal (from `np.zeros`),
otherwise the half-up-rounded Euclidean distance between the coordinates of
the 1-indexed nodes `i+1` and `j+1`; `none` models the `KeyError` raised by
`self.node_coords[i]` when a coordinate is missing. -/
def vrpEntry (coords : ℕ → Option (ℚ × ℚ)) (i j : ℕ) : Option ℕ :=
  if i = j then some 0
  else
    match coords (i + 1), coords (j + 1) with
    | some ci, some cj => some (roundHalfUpSqrt (sqDist ci cj))
    | _, _ => none

/-- Embeds `VRPDataReader.compute_distance_matrix` (`utils.py` lines 87-100):
an `n × n` matrix over 1-indexed node ids, half-up rounding. -/
def compute_distance_matrix (n : ℕ) (coords : ℕ → Option (ℚ × ℚ)) :
    Option (List (List ℕ)) :=
  matrixOf n (vrpEntry coords)

/-- Entry of the distance matrix of `load_tsp_instance`: `0` on the diagonal,
otherwise Python `round` (half-to-even) of the Euclidean distance between the
0-indexed nodes `i` and `j`; `none` models the `KeyError` on a missing
coordinate. -/
def tspEntry (coords : ℕ → Option (ℚ × ℚ)) (i j : ℕ) : Option ℕ :=
  if i = j then some 0
  else
    match coords i, coords j with
    | some ci, some cj => some (roundHalfEvenSqrt (sqDist ci cj))
    | _, _ => none

/-- Embeds the distance-matrix loop of `load_tsp_instance`
(`tsp_utils.py` lines 169-181). -/
def loadTspMatrix (n : ℕ) (coords : ℕ → Option (ℚ × ℚ)) :
    Option (List (List ℕ)) :=
  matrixOf n (tspEntry coords)

/-- Record returned by `load_tsp_instance` (name field omitted). -/
structure TspInstance where
  dimension : ℕ
  coordinates : ℕ → Option (ℚ × ℚ)
  distance_matrix : List (List ℕ)

/-- Embeds `load_tsp_instance` after header parsing: given the parsed
dimension and (0-indexed) coordinate map, build the distance matrix and
return the record; `none` models the `KeyError` escaping the function. -/
def load_tsp_instance (n : ℕ) (coords : ℕ → Option (ℚ × ℚ)) :
    Option TspInstance :=
  (loadTspMatrix n coords).map fun m => ⟨n, coords, m⟩

/-- Node-id selection of `TSPDataExtractor.extract_tsp_subset`
(`tsp_utils.py` lines 41-52): with the depot, clamp `K` to `dimension` and
take `[1] + list(range(2, K+1))`; without it, clamp `K` to `dimension - 1`
and take `list(range(2, K+2))`.  (`List.range' a k` is `[a, a+1, ..., a+k-1]`;
truncated `ℕ` subtraction reproduces the empty ranges Python produces for
small dimensions.) -/
def selected_nodes (dim K : ℕ) (includeDepot : Bool) : List ℕ :=
  if includeDepot then 1 :: List.range' 2 (min K dim - 1)
  else List.range' 2 (min K (dim - 1))

/-- Record returned by `extract_tsp_subset` (name and source-file fields
omitted). -/
structure TspSubset where
  dimension : ℕ
  coordinates : ℕ → Option (ℚ × ℚ)
  distance_matrix : List (List ℕ)
  original_vrp_nodes : List ℕ
  include_depot : Bool

/-- Slice of the parent distance matrix over the selected 1-indexed node
ids (`tsp_utils.py` lines 61-67): entry `(i, j)` is
`self.distance_matrix[node_i - 1][node_j - 1]`; `none` models the
`IndexError` when an index is out of bounds.  (Selected ids are always
`≥ 1`, so the numpy negative-index wrap-around is never exercised.) -/
def sliceMatrix (M : List (List ℕ)) (sel : List ℕ) : Option (List (List ℕ)) :=
  optList (sel.map fun a =>
    optList (sel.map fun b => (M.get? (a - 1)).bind fun row => row.get? (b - 1)))

/-- Embeds `TSPDataExtractor.extract_tsp_subset` (`tsp_utils.py` lines
30-80), given the parsed parent dimension, coordinate map and distance
matrix.  The coordinate dict copies only the selected ids that are present
(`if node_id in self.vrp_data[node_coords]`), so a missing parent
coordinate is silently skipped; the matrix slice, by contrast, can raise. -/
def extract_tsp_subset (dim : ℕ) (coords : ℕ → Option (ℚ × ℚ))
    (M : List (List ℕ)) (K : ℕ) (includeDepot : Bool) : Option TspSubset :=
  let sel := selected_nodes dim K includeDepot
  (sliceMatrix M sel).map fun dm =>
    { dimension := sel.length
      coordinates := fun i => (sel.get? i).bind coords
      distance_matrix := dm
      original_vrp_nodes := sel
      include_depot := includeDepot }

/-- Successor map read off a solved assignment matrix by
`MIPTSPSolver._extract_tour` (`tsp_mip.py` lines 138-142): for each `i`,
the last `j < n` with `i ≠ j` and value `> 0.5` (the dict assignment
`edges[i] = j` overwrites on repeated hits); no such `j` means node `i`
has no key in `edges`. -/
def buildEdge (n : ℕ) (X : ℕ → ℕ → ℚ) (i : ℕ) : Option ℕ :=
  (List.range n).foldl (fun acc j => if i ≠ j ∧ 1 / 2 < X i j then some j else acc) none

/-- Path-following loop of `_extract_tour` (`tsp_mip.py` lines 151-168):
at most `n` steps from node 0, stopping on a revisit or a missing outgoing
edge (the node itself is still appended in the latter case). -/
def followLoop (succ : ℕ → Option ℕ) : ℕ → ℕ → List ℕ → List ℕ
  | 0, _, _ => []
  | fuel + 1, cur, vis =>
    if cur ∈ vis then []
    else
      match succ cur with
      | none => [cur]
      | some nxt => cur :: followLoop succ fuel nxt (cur :: vis)

/-- Inner while-loop of `_handle_subtours` (`tsp_mip.py` lines 200-208):
follow successors from the current node while it is still unvisited,
removing each visited node; returns the traced segment and the remaining
unvisited nodes.  Fuel `≥ |unvisited|` makes the recursion total without
changing the result, since every iteration removes one unvisited node. -/
def innerLoop (succ : ℕ → Option ℕ) : ℕ → Option ℕ → List ℕ → List ℕ × List ℕ
  | 0, _, unv => ([], unv)
  | _ + 1, none, unv => ([], unv)
  | fuel + 1, some c, unv =>
    if c ∈ unv then
      let r := innerLoop succ fuel (succ c) (unv.erase c)
      (c :: r.1, r.2)
    else ([], unv)

/-- Minimum of a list of naturals (Python `min` on a nonempty set; the `[]`
case is never reached behind the nonemptiness guard). -/
def listMin : List ℕ → ℕ
  | [] => 0
  | x :: xs => xs.foldl Nat.min x

/-- Outer while-loop of `_handle_subtours` (`tsp_mip.py` lines 190-211):
repeatedly trace a segment from node 0 if unvisited, else from the minimal
unvisited node, and keep the segments of length `> 1`.  Each round removes
at least its start node, so fuel `n` suffices for an initial unvisited set
of `n` nodes. -/
def outerLoop (succ : ℕ → Option ℕ) : ℕ → List ℕ → List (List ℕ)
  | 0, _ => []
  | fuel + 1, unv =>
    if unv.isEmpty then []
    else
      let start := if 0 ∈ unv then 0 else listMin unv
      let r := innerLoop succ unv.length (some start) unv
      if 1 < r.1.length then r.1 :: outerLoop succ fuel r.2
      else outerLoop succ fuel r.2

/-- Segments (the `subtours` list) collected by `_handle_subtours` for `n`
nodes. -/
def collectSegments (n : ℕ) (succ : ℕ → Option ℕ) : List (List ℕ) :=
  outerLoop succ n (List.range n)

/-- Python `max(subtours, key=len)`: the first list of maximal length. -/
def maxByLen : List (List ℕ) → List ℕ
  | [] => []
  | s :: rest => rest.foldl (fun b t => if b.length < t.length then t else b) s

/-- Embeds `MIPTSPSolver._handle_subtours` (`tsp_mip.py` lines 182-238):
first segment containing node 0, rotated to start at 0 and closed with 0;
otherwise the first longest segment closed with its own start; otherwise
empty. -/
def handle_subtours (n : ℕ) (succ : ℕ → Option ℕ) : List ℕ :=
  let segs := collectSegments n succ
  match segs.find? (fun s => decide (0 ∈ s)) with
  | some s => (s.drop (s.indexOf 0) ++ s.take (s.indexOf 0)) ++ [0]
  | none =>
    match segs with
    | [] => []
    | s :: rest => maxByLen (s :: rest) ++ [(maxByLen (s :: rest)).headI]

/-- Embeds `MIPTSPSolver._extract_tour` (`tsp_mip.py` lines 135-180) over a
successor map: empty if node 0 has no outgoing edge; otherwise follow the
path from 0, close it with 0 if it reached all `n` nodes, and fall back to
subtour repair otherwise. -/
def extract_tour (n : ℕ) (succ : ℕ → Option ℕ) : List ℕ :=
  match succ 0 with
  | none => []
  | some _ =>
    let tour := followLoop succ n 0 []
    if tour.length = n then tour ++ [0] else handle_subtours n succ

/-- `_extract_tour` applied to the successor map read off an assignment
matrix. -/
def extract_tour_of_matrix (n : ℕ) (X : ℕ → ℕ → ℚ) : List ℕ :=
  extract_tour n (buildEdge n X)

/-- Closed successor cycle of length `> 1`: pairwise-distinct nodes, each
mapped by the successor function to the next, the last back to the first. -/
def IsCycle (succ : ℕ → Option ℕ) (l : List ℕ) : Prop :=
  1 < l.length ∧ l.Nodup ∧ List.Chain' (fun a b => succ a = some b) l ∧
    ∀ x, l.getLast? = some x → succ x = l.head?

/-- Drop an expected literal prefix, returning the rest of the input. -/
def dropLiteral : List Char → List Char → Option (List Char)
  | [], cs => some cs
  | _ :: _, [] => none
  | p :: ps, c :: cs => if c = p then dropLiteral ps cs else none

/-- Numeric value of a digit string (the `int(...)` applied to the matched
group). -/
def digitsVal (cs : List Char) : ℕ :=
  cs.foldl (fun a c => 10 * a + (c.toNat - 48)) 0

/-- Match the regex `No of trucks:\s*(\d+)` anchored at the head of the
input: the literal, then greedily skipped whitespace, then at least one
digit.  (No backtracking is needed: a whitespace character is never a
digit, so the boundary between `\s*` and `\d+` is forced.) -/
def matchTrucksAt (cs : List Char) : Option ℕ :=
  match dropLiteral ("No of trucks:".toList) cs with
  | none => none
  | some rest =>
    let ds := (rest.dropWhile fun c => c.isWhitespace).takeWhile fun c => c.isDigit
    if ds.isEmpty then none else some (digitsVal ds)

/-- Embeds the `re.search` of the pattern `No of trucks:\s*(\d+)`: try the anchored
match at every start position, left to right. -/
def searchTrucks : List Char → Option ℕ
  | [] => none
  | c :: cs =>
    match matchTrucksAt (c :: cs) with
    | some v => some v
    | none => searchTrucks cs

/-- Embeds `VRPDataReader._extract_num_vehicles` (`utils.py` lines 73-78):
`4` when the comment is absent or the regex does not match.  (The Python
`if self.comment:` also treats the empty string as absent; the embedding
agrees because the search fails on an empty string anyway.) -/
def extract_num_vehicles (comment : Option (List Char)) : ℕ :=
  match comment with
  | none => 4
  | some s =>
    match searchTrucks s with
    | some v => v
    | none => 4

/-- Match the regex `Optimal value:\s*([\d.]+)` anchored at the head of the
input, returning the matched token. -/
def matchOptValAt (cs : List Char) : Option (List Char) :=
  match dropLiteral ("Optimal value:".toList) cs with
  | none => none
  | some rest =>
    let ds := (rest.dropWhile fun c => c.isWhitespace).takeWhile
      fun c => c.isDigit || c == '.'
    if ds.isEmpty then none else some ds

/-- Embeds the `re.search` of the pattern `Optimal value:\s*([\d.]+)`. -/
def searchOptVal : List Char → Option (List Char)
  | [] => none
  | c :: cs =>
    match matchOptValAt (c :: cs) with
    | some v => some v
    | none => searchOptVal cs

/-- Embeds `VRPDataReader._extract_optimal_value` (`utils.py` lines 80-85),
returning the matched token (`None` when absent or unmatched; the
`float(...)` conversion of the token is not modelled). -/
def extract_optimal_value (comment : Option (List Char)) : Option (List Char) :=
  match comment with
  | none => none
  | some s => searchOptVal s

/-- Successor-chain predicate: consecutive elements are linked by `succ`,
and the successor of the last element is `t`. -/
def ChainTo (succ : ℕ → Option ℕ) : List ℕ → ℕ → Prop
  | [], _ => True
  | [a], t => succ a = some t
  | a :: b :: rest, t => succ a = some b ∧ ChainTo succ (b :: rest) t

lemma foldl_if_keep {p : ℕ → Prop} [DecidablePred p] :
    ∀ (L : List ℕ) (acc : Option ℕ), (∀ j ∈ L, ¬ p j) →
      L.foldl (fun acc j => if p j then some j else acc) acc = acc := by
  intro L
  induction L with
  | nil => intro acc _; rfl
  | cons a t ih =>
    intro acc h
    have ha : ¬ p a := h a (List.mem_cons_self a t)
    simp only [List.foldl_cons, if_neg ha]
    exact ih acc fun j hj => h j (List.mem_cons_of_mem a hj)

lemma foldl_if_unique {p : ℕ → Prop} [DecidablePred p] :
    ∀ (L : List ℕ) (acc : Option ℕ) (j₀ : ℕ), j₀ ∈ L → (∀ j ∈ L, p j ↔ j = j₀) →
      L.foldl (fun acc j => if p j then some j else acc) acc = some j₀ := by
  intro L
  induction L with
  | nil => intro acc j₀ h; simp at h
  | cons a t ih =>
    intro acc j₀ hmem hiff
    by_cases hj : j₀ ∈ t
    · simp only [List.foldl_cons]
      exact ih _ j₀ hj fun j hjt => hiff j (List.mem_cons_of_mem a hjt)
    · have ha : a = j₀ := by
        rcases List.mem_cons.mp hmem with h | h
        · exact h.symm
        · exact absurd h hj
      have hpa : p a := (hiff a (List.mem_cons_self a t)).mpr ha
      simp only [List.foldl_cons, if_pos hpa]
      rw [ha]
      exact foldl_if_keep t (some j₀) fun j hjt hpj =>
        hj ((hiff j (List.mem_cons_of_mem a hjt)).mp hpj ▸ hjt)

lemma innerLoop_fst_nil (succ : ℕ → Option ℕ) (fuel : ℕ) (c : ℕ) (unv : List ℕ)
    (h : c ∉ unv) : (innerLoop succ fuel (some c) unv).1 = [] := by
  cases fuel with
  | zero => rfl
  | succ f => simp [innerLoop, h]

/-- Tracing a nodup successor chain whose elements are all unvisited
consumes exactly the chain: the inner loop of `_handle_subtours` returns
the chain as the segment, provided the final target `t` is already
consumed (a member of the chain) or was never unvisited. -/
lemma innerLoop_trace (succ : ℕ → Option ℕ) (t : ℕ) :
    ∀ (p : List ℕ) (a : ℕ) (unv : List ℕ) (fuel : ℕ),
      (a :: p).Nodup → unv.Nodup → (∀ x ∈ a :: p, x ∈ unv) →
      ChainTo succ (a :: p) t → (t ∈ a :: p ∨ t ∉ unv) →
      (a :: p).length ≤ fuel →
      (innerLoop succ fuel (some a) unv).1 = a :: p := by
  intro p
  induction p with
  | nil =>
    intro a unv fuel hnd hunv hmem hchain ht hfuel
    have ha : a ∈ unv := hmem a (List.mem_cons_self a [])
    cases fuel with
    | zero => simp at hfuel
    | succ f =>
      have hstep : succ a = some t := hchain
      simp only [innerLoop, if_pos ha, hstep]
      have htn : t ∉ unv.erase a := by
        rcases ht with h | h
        · have : t = a := by simpa using h
          rw [this]
          exact List.Nodup.not_mem_erase hunv
        · exact fun hmem2 => h (List.mem_of_mem_erase hmem2)
      rw [innerLoop_fst_nil succ f t (unv.erase a) htn]
  | cons b rest ih =>
    intro a unv fuel hnd hunv hmem hchain ht hfuel
    have ha : a ∈ unv := hmem a (List.mem_cons_self a _)
    cases fuel with
    | zero => simp at hfuel
    | succ f =>
      obtain ⟨hstep, hchain2⟩ := hchain
      simp only [innerLoop, if_pos ha, hstep]
      have hanotin : a ∉ b :: rest := List.Nodup.not_mem hnd
      have hnd2 : (b :: rest).Nodup := hnd.of_cons
      have hmem2 : ∀ x ∈ b :: rest, x ∈ unv.erase a := by
        intro x hx
        refine (List.Nodup.mem_erase_iff hunv).mpr ⟨?_, hmem x (List.mem_cons_of_mem a hx)⟩
        intro hxa
        exact hanotin (hxa ▸ hx)
      have ht2 : t ∈ b :: rest ∨ t ∉ unv.erase a := by
        rcases ht with h | h
        · rcases List.mem_cons.mp h with h1 | h1
          · right
            rw [h1]
            exact List.Nodup.not_mem_erase hunv
          · left
            exact h1
        · right
          exact fun hmem3 => h (List.mem_of_mem_erase hmem3)
      have hfuel2 : (b :: rest).length ≤ f := by
        simp at hfuel
        simpa using hfuel
      rw [ih b (unv.erase a) f hnd2 (hunv.erase a) hmem2 hchain2 ht2 hfuel2]

lemma followLoop_nil (succ : ℕ → Option ℕ) (fuel : ℕ) (c : ℕ) (vis : List ℕ)
    (h : c ∈ vis) : followLoop succ fuel c vis = [] := by
  cases fuel with
  | zero => rfl
  | succ f => simp [followLoop, h]

/-- Tracing a nodup successor chain disjoint from the visited set consumes
exactly the chain in the path-following loop of `_extract_tour`, provided the
final target `t` is a member of the chain or already visited. -/
lemma followLoop_trace (succ : ℕ → Option ℕ) (t : ℕ) :
    ∀ (p : List ℕ) (a : ℕ) (vis : List ℕ) (fuel : ℕ),
      (a :: p).Nodup → (∀ x ∈ a :: p, x ∉ vis) →
      ChainTo succ (a :: p) t → (t ∈ a :: p ∨ t ∈ vis) →
      (a :: p).length ≤ fuel →
      followLoop succ fuel a vis = a :: p := by
  intro p
  induction p with
  | nil =>
    intro a vis fuel hnd hvis hchain ht hfuel
    have ha : a ∉ vis := hvis a (List.mem_cons_self a [])
    cases fuel with
    | zero => simp at hfuel
    | succ f =>
      have hstep : succ a = some t := hchain
      simp only [followLoop, if_neg ha, hstep]
      have htv : t ∈ a :: vis := by
        rcases ht with h | h
        · have : t = a := by simpa using h
          rw [this]
          exact List.mem_cons_self a vis
        · exact List.mem_cons_of_mem a h
      rw [followLoop_nil succ f t (a :: vis) htv]
  | cons b rest ih =>
    intro a vis fuel hnd hvis hchain ht hfuel
    have ha : a ∉ vis := hvis a (List.mem_cons_self a _)
    cases fuel with
    | zero => simp at hfuel
    | succ f =>
      obtain ⟨hstep, hchain2⟩ := hchain
      simp only [followLoop, if_neg ha, hstep]
      have hanotin : a ∉ b :: rest := List.Nodup.not_mem hnd
      have hvis2 : ∀ x ∈ b :: rest, x ∉ a :: vis := by
        intro x hx
        intro hxm
        rcases List.mem_cons.mp hxm with h1 | h1
        · exact hanotin (h1 ▸ hx)
        · exact hvis x (List.mem_cons_of_mem a hx) h1
      have ht2 : t ∈ b :: rest ∨ t ∈ a :: vis := by
        rcases ht with h | h
        · rcases List.mem_cons.mp h with h1 | h1
          · right
            rw [h1]
            exact List.mem_cons_self a vis
          · left
            exact h1
        · right
          exact List.mem_cons_of_mem a h
      have hfuel2 : (b :: rest).length ≤ f := by
        simp at hfuel
        simpa using hfuel
      rw [ih b (a :: vis) f hnd.of_cons hvis2 hchain2 ht2 hfuel2]

lemma maxByLen_fold_mem :
    ∀ (L : List (List ℕ)) (b : List ℕ),
      L.foldl (fun b t => if b.length < t.length then t else b) b ∈ b :: L := by
  intro L
  induction L with
  | nil => intro b; simp
  | cons s rest ih =>
    intro b
    simp only [List.foldl_cons]
    by_cases h : b.length < s.length
    · rw [if_pos h]
      have := ih s
      rcases List.mem_cons.mp this with h1 | h1
      · rw [h1]
        simp
      · right
        exact List.mem_cons_of_mem s h1
    · rw [if_neg h]
      have := ih b
      rcases List.mem_cons.mp this with h1 | h1
      · rw [h1]
        simp
      · right
        exact List.mem_cons_of_mem s h1

lemma maxByLen_fold_le :
    ∀ (L : List (List ℕ)) (b : List ℕ),
      b.length ≤ (L.foldl (fun b t => if b.length < t.length then t else b) b).length ∧
        ∀ s ∈ L, s.length ≤ (L.foldl (fun b t => if b.length < t.length then t else b) b).length := by
  intro L
  induction L with
  | nil => intro b; simp
  | cons s rest ih =>
    intro b
    simp only [List.foldl_cons]
    by_cases h : b.length < s.length
    · rw [if_pos h]
      obtain ⟨h1, h2⟩ := ih s
      refine ⟨le_trans (le_of_lt h) h1, ?_⟩
      intro u hu
      rcases List.mem_cons.mp hu with h3 | h3
      · rw [h3]
        exact h1
      · exact h2 u h3
    · rw [if_neg h]
      obtain ⟨h1, h2⟩ := ih b
      refine ⟨h1, ?_⟩
      intro u hu
      rcases List.mem_cons.mp hu with h3 | h3
      · rw [h3]
        exact le_trans (not_lt.mp h) h1
      · exact h2 u h3

lemma maxByLen_mem (L : List (List ℕ)) (h : L ≠ []) : maxByLen L ∈ L := by
  cases L with
  | nil => exact absurd rfl h
  | cons s rest =>
    have := maxByLen_fold_mem rest s
    simpa [maxByLen] using this

lemma maxByLen_le (L : List (List ℕ)) : ∀ s ∈ L, s.length ≤ (maxByLen L).length := by
  cases L with
  | nil => intro s h; simp at h
  | cons s rest =>
    intro u hu
    rcases List.mem_cons.mp hu with h1 | h1
    · rw [h1]
      exact (maxByLen_fold_le rest s).1
    · exact (maxByLen_fold_le rest s).2 u h1

lemma length_le_of_nodup_lt {l : List ℕ} {n : ℕ} (hnd : l.Nodup)
    (hmem : ∀ x ∈ l, x < n) : l.length ≤ n := by
  have hsub : l ⊆ List.range n := fun x hx => List.mem_range.mpr (hmem x hx)
  have := (List.subperm_of_subset hnd hsub).length_le
  simpa using this

/-- First iteration of the outer repair loop on a closed cycle through node
0: the cycle is traced in full and recorded as the first segment. -/
lemma collectSegments_cons_of_cycle0 (n : ℕ) (succ : ℕ → Option ℕ) (p : List ℕ)
    (hlen : 1 < (0 :: p).length) (hnd : (0 :: p).Nodup)
    (hmem : ∀ x ∈ 0 :: p, x < n) (hchain : ChainTo succ (0 :: p) 0) :
    ∃ rest, collectSegments n succ = (0 :: p) :: rest := by
  have h0n : 0 < n := hmem 0 (List.mem_cons_self 0 p)
  cases n with
  | zero => omega
  | succ m =>
    have hne : (List.range (m + 1)).isEmpty = false := by
      simp [List.isEmpty_iff]
    have h0mem : 0 ∈ List.range (m + 1) := List.mem_range.mpr h0n
    have htrace : (innerLoop succ (List.range (m + 1)).length (some 0)
        (List.range (m + 1))).1 = 0 :: p := by
      refine innerLoop_trace succ 0 p 0 (List.range (m + 1))
        (List.range (m + 1)).length hnd (List.nodup_range (m + 1))
        (fun x hx => List.mem_range.mpr (hmem x hx)) hchain
        (Or.inl (List.mem_cons_self 0 p)) ?_
      rw [List.length_range]
      exact length_le_of_nodup_lt hnd hmem
    unfold collectSegments
    rw [outerLoop]
    rw [hne]
    simp only [Bool.false_eq_true, if_false, if_pos h0mem]
    rw [htrace]
    rw [if_pos (by simpa using hlen)]
    exact ⟨_, rfl⟩

/-- Subtour repair on a closed cycle through node 0 returns the cycle
closed by node 0. -/
lemma handle_subtours_cycle0 (n : ℕ) (succ : ℕ → Option ℕ) (l : List ℕ)
    (hlen : 1 < l.length) (hnd : l.Nodup) (hmem : ∀ x ∈ l, x < n)
    (hhead : l.head? = some 0) (hchain : ChainTo succ l 0) :
    handle_subtours n succ = l ++ [0] := by
  obtain ⟨p, hp⟩ : ∃ p, l = 0 :: p := by
    cases l with
    | nil => simp at hhead
    | cons a t =>
      have ha : a = 0 := by simpa using hhead
      exact ⟨t, by rw [ha]⟩
  subst hp
  obtain ⟨rest, hcs⟩ := collectSegments_cons_of_cycle0 n succ p hlen hnd hmem hchain
  unfold handle_subtours
  rw [hcs]
  dsimp only
  rw [List.find?_cons_of_pos _ (by simp)]
  simp [List.indexOf_cons_self]

lemma IsCycle.succ_mem {succ : ℕ → Option ℕ} {l : List ℕ} (hc : IsCycle succ l) :
    ∀ x ∈ l, ∃ y, succ x = some y ∧ y ∈ l := by
  obtain ⟨hlen, hnd, hchain, hlast⟩ := hc
  intro x hx
  obtain ⟨i, hi⟩ := List.mem_iff_get.mp hx
  by_cases h : (i : ℕ) + 1 < l.length
  · have hbound : (i : ℕ) < l.length - 1 := by omega
    have hstep := List.chain'_iff_get.mp hchain i hbound
    refine ⟨l.get ⟨(i : ℕ) + 1, h⟩, ?_, List.get_mem l _ _⟩
    rw [← hi]
    convert hstep using 2
  · have hx_last : l.getLast? = some x := by
      rw [List.getLast?_eq_get?]
      have hieq : (i : ℕ) = l.length - 1 := by
        have := i.isLt
        omega
      rw [← hieq, List.get?_eq_get i.isLt]
      exact congrArg some hi
    have hsx := hlast x hx_last
    cases hl : l with
    | nil => rw [hl] at hlen; simp at hlen
    | cons a t =>
      refine ⟨a, ?_, hl ▸ List.mem_cons_self a t⟩
      rw [hsx, hl]
      rfl

/-- Assignment matrix with `x[0][1] = x[1][2] = 1` and every other entry 0:
a degenerate solution whose edge set is the chain `0 → 1 → 2`. -/
def chainX : ℕ → ℕ → ℚ := fun i j =>
  if (i = 0 ∧ j = 1) ∨ (i = 1 ∧ j = 2) then 1 else 0

/-- The successor map `{0 ↦ 1, 1 ↦ 2}`. -/
def chainSucc4 : ℕ → Option ℕ := fun k =>
  if k = 0 then some 1 else if k = 1 then some 2 else none

lemma buildEdge_chainX : buildEdge 4 chainX = chainSucc4 := by
  funext i
  unfold buildEdge chainX chainSucc4
  have hr : List.range 4 = [0, 1, 2, 3] := rfl
  rw [hr]
  simp only [List.foldl_cons, List.foldl_nil]
  by_cases h0 : i = 0
  · subst h0
    norm_num
  · by_cases h1 : i = 1
    · subst h1
      norm_num
    · simp only [h0, h1]
      norm_num

lemma chainSucc4_no_cycle : ∀ l, ¬ IsCycle chainSucc4 l := by
  intro l hc
  have hclosed := IsCycle.succ_mem hc
  have h2 : 2 ∉ l := by
    intro hm
    obtain ⟨y, hy, _⟩ := hclosed 2 hm
    simp [chainSucc4] at hy
  have h1 : 1 ∉ l := by
    intro hm
    obtain ⟨y, hy, hym⟩ := hclosed 1 hm
    simp [chainSucc4] at hy
    exact h2 (hy ▸ hym)
  have h0 : 0 ∉ l := by
    intro hm
    obtain ⟨y, hy, hym⟩ := hclosed 0 hm
    simp [chainSucc4] at hy
    exact h1 (hy ▸ hym)
  obtain ⟨hlen, _, _, _⟩ := hc
  have hne : l ≠ [] := by
    intro h
    rw [h] at hlen
    simp at hlen
  obtain ⟨x, hx⟩ := List.exists_mem_of_ne_nil l hne
  obtain ⟨y, hy, _⟩ := hclosed x hx
  by_cases hx0 : x = 0
  · exact h0 (hx0 ▸ hx)
  by_cases hx1 : x = 1
  · exact h1 (hx1 ▸ hx)
  simp [chainSucc4, hx0, hx1] at hy

/-- C2 (corrected): subtour repair returns, in order of preference:
(1) when the successors on nodes `< n` close into a cycle `l` of length
greater than 1 that begins at node 0, that cycle closed by appending node
0; (2) when no collected segment contains node 0 but some segment was
collected, the first longest segment closed by appending its own start
node; (3) the empty sequence when no segment was collected.  The original
claim says cycle where only segment holds (the walk traced until a
dead end, a repeat, or a return to the start): the repair loop also keeps
chains that never close, see the counterexample. -/
theorem claim_C2 (n : ℕ) (succ : ℕ → Option ℕ) :
    (∀ l, 1 < l.length → l.Nodup → (∀ x ∈ l, x < n) → l.head? = some 0 →
      ChainTo succ l 0 → handle_subtours n succ = l ++ [0]) ∧
    (collectSegments n succ = [] → handle_subtours n succ = []) ∧
    ((∀ s ∈ collectSegments n succ, 0 ∉ s) → collectSegments n succ ≠ [] →
      handle_subtours n succ =
        maxByLen (collectSegments n succ) ++ [(maxByLen (collectSegments n succ)).headI] ∧
      maxByLen (collectSegments n succ) ∈ collectSegments n succ ∧
      ∀ s ∈ collectSegments n succ, s.length ≤ (maxByLen (collectSegments n succ)).length) := by
  refine ⟨?_, ?_, ?_⟩
  · intro l h1 h2 h3 h4 h5
    exact handle_subtours_cycle0 n succ l h1 h2 h3 h4 h5
  · intro h
    unfold handle_subtours
    rw [h]
    rfl
  · intro hno hne
    have hfind : (collectSegments n succ).find? (fun s => decide (0 ∈ s)) = none := by
      rw [List.find?_eq_none]
      intro s hs
      simpa using hno s hs
    refine ⟨?_, maxByLen_mem _ hne, maxByLen_le _⟩
    unfold handle_subtours
    dsimp only
    rw [hfind]
    cases hcs : collectSegments n succ with
    | nil => exact absurd hcs hne
    | cons s rest => rfl

/-- Two disjoint 2-cycles `0 ↔ 1` and `2 ↔ 3` (the degradation
scenario). -/
def twoCyclesSucc : ℕ → Option ℕ := fun k =>
  if k = 0 then some 1 else if k = 1 then some 0
  else if k = 2 then some 3 else if k = 3 then some 2 else none

/-- A single 2-cycle `1 ↔ 2` not containing node 0, no edge out of 0. -/
def noDepotSucc : ℕ → Option ℕ := fun k =>
  if k = 1 then some 2 else if k = 2 then some 1 else none

/-- Witness for C2 at concrete inputs: the two-2-cycle scenario
`0 ↔ 1`, `2 ↔ 3` returns `[0, 1, 0]`; an empty instance returns `[]`; and
with the single cycle `1 ↔ 2` avoiding node 0 the longest segment is
returned closed. -/
theorem claim_C2_witness :
    handle_subtours 4 twoCyclesSucc = [0, 1] ++ [0] ∧
    handle_subtours 0 (fun _ => none) = [] ∧
    handle_subtours 3 noDepotSucc =
      maxByLen (collectSegments 3 noDepotSucc) ++
        [(maxByLen (collectSegments 3 noDepotSucc)).headI] :=
  ⟨(claim_C2 4 twoCyclesSucc).1 [0, 1] (by decide) (by decide) (by decide) rfl ⟨rfl, rfl⟩,
    (claim_C2 0 (fun _ => none)).2.1 (by decide),
    ((claim_C2 3 noDepotSucc).2.2 (by decide) (by decide)).1⟩

/-- C2 counterexample: the successor map read off `chainX` is the chain
`0 → 1 → 2`, which contains no cycle at all; the repair path is genuinely
reached (the walk of `_extract_tour` covers only 3 of the 4 nodes) and returns
`[0, 1, 2, 0]`, not the empty sequence the claim requires when no cycle of
length greater than 1 exists. -/
theorem claim_C2_counterexample :
    (∀ l, ¬ IsCycle (buildEdge 4 chainX) l) ∧
    extract_tour_of_matrix 4 chainX = [0, 1, 2, 0] ∧
    handle_subtours 4 (buildEdge 4 chainX) = [0, 1, 2, 0] := by
  refine ⟨?_, ?_, ?_⟩
  · rw [buildEdge_chainX]
    exact chainSucc4_no_cycle
  · unfold extract_tour_of_matrix
    rw [buildEdge_chainX]
    decide
  · rw [buildEdge_chainX]
    decide

/-- C6 (confirmed): if node 0 has no outgoing 1-valued edge in the
assignment matrix (no `j ≠ 0` with value above the 0.5 threshold), the
reconstructor returns the empty tour. -/
theorem claim_C6 (n : ℕ) (X : ℕ → ℕ → ℚ)
    (h : ∀ j, j < n → j ≠ 0 → ¬ (1 / 2 < X 0 j)) :
    extract_tour_of_matrix n X = [] := by
  have hb : buildEdge n X 0 = none := by
    unfold buildEdge
    refine foldl_if_keep (List.range n) none ?_
    intro j hj hcond
    obtain ⟨hne, hgt⟩ := hcond
    exact h j (List.mem_range.mp hj) (Ne.symm hne) hgt
  unfold extract_tour_of_matrix extract_tour
  rw [hb]

/-- Witness for C6: the all-zero assignment on two nodes yields the empty
tour. -/
theorem claim_C6_witness : extract_tour_of_matrix 2 (fun _ _ => 0) = [] :=
  claim_C6 2 (fun _ _ => 0) (fun j _ _ => by norm_num)

/-- Cyclic successor within the list `a :: rest`, wrapping back to `first`
after the last element. -/
def cycNext (first : ℕ) : List ℕ → ℕ → Option ℕ
  | [], _ => none
  | [a], x => if x = a then some first else none
  | a :: b :: rest, x => if x = a then some b else cycNext first (b :: rest) x

/-- Successor around the cycle represented by the list `l` (wrapping from
the last element back to the head). -/
def CycSucc (l : List ℕ) (x : ℕ) : Option ℕ := cycNext l.headI l x

lemma cycNext_cons_ne (first a x : ℕ) (l : List ℕ) (hl : l ≠ []) (hx : x ≠ a) :
    cycNext first (a :: l) x = cycNext first l x := by
  cases l with
  | nil => exact absurd rfl hl
  | cons b rest => simp [cycNext, hx]

lemma cycNext_append (first x : ℕ) (u w : List ℕ) (hw : w ≠ []) (hx : x ∉ u) :
    cycNext first (u ++ w) x = cycNext first w x := by
  induction u with
  | nil => rfl
  | cons c u ih =>
    have hxc : x ≠ c := fun h => hx (h ▸ List.mem_cons_self c u)
    have hne : u ++ w ≠ [] := by
      intro h
      exact hw (List.append_eq_nil.mp h).2
    rw [List.cons_append, cycNext_cons_ne first c x (u ++ w) hne hxc]
    exact ih fun h => hx (List.mem_cons_of_mem c h)

lemma cycSucc_mid (L : List ℕ) (hnd : L.Nodup) (u v : List ℕ) (a b : ℕ)
    (hL : L = u ++ a :: b :: v) : CycSucc L a = some b := by
  have ha : a ∉ u := by
    rw [hL, List.nodup_append] at hnd
    intro hau
    exact hnd.2.2 hau (List.mem_cons_self a (b :: v))
  unfold CycSucc
  conv_lhs => rw [hL]
  rw [cycNext_append _ a u _ (by simp) ha]
  simp [cycNext]

lemma cycSucc_last (L : List ℕ) (hnd : L.Nodup) (u : List ℕ) (a : ℕ)
    (hL : L = u ++ [a]) : CycSucc L a = some L.headI := by
  have ha : a ∉ u := by
    rw [hL, List.nodup_append] at hnd
    intro hau
    exact hnd.2.2 hau (List.mem_cons_self a [])
  unfold CycSucc
  conv_lhs => rw [hL]
  rw [cycNext_append _ a u [a] (by simp) ha]
  simp [cycNext]
  rw [hL]

lemma cycSucc_spec (l : List ℕ) (hnd : l.Nodup) (hlen : 1 < l.length) {x : ℕ}
    (hx : x ∈ l) : ∃ y, CycSucc l x = some y ∧ y ∈ l ∧ x ≠ y := by
  obtain ⟨u, v, huv⟩ := List.append_of_mem hx
  cases v with
  | nil =>
    have hs := cycSucc_last l hnd u x huv
    cases hu : u with
    | nil =>
      rw [hu] at huv
      rw [huv] at hlen
      simp at hlen
    | cons c u2 =>
      have hheadI : l.headI = c := by
        rw [huv, hu]
        rfl
      refine ⟨l.headI, hs, ?_, ?_⟩
      · rw [hheadI, huv, hu]
        exact List.mem_cons_self c _
      · rw [hheadI]
        rw [huv, hu, List.nodup_append] at hnd
        intro hxc
        exact hnd.2.2 (hxc ▸ List.mem_cons_self c u2) (List.mem_cons_self x [])
  | cons b v2 =>
    have hs := cycSucc_mid l hnd u v2 x b huv
    refine ⟨b, hs, ?_, ?_⟩
    · rw [huv]
      simp
    · rw [huv, List.nodup_append] at hnd
      have := hnd.2.1
      intro hxb
      rw [List.nodup_cons] at this
      exact this.1 (hxb ▸ List.mem_cons_self b v2)

lemma chainTo_cycSucc_suffix (L : List ℕ) (hnd : L.Nodup) :
    ∀ (s u : List ℕ), L = u ++ s → s ≠ [] → ChainTo (CycSucc L) s L.headI := by
  intro s
  induction s with
  | nil =>
    intro u _ h
    exact absurd rfl h
  | cons a t ih =>
    intro u hL _
    cases t with
    | nil => exact cycSucc_last L hnd u a hL
    | cons b t2 =>
      refine ⟨cycSucc_mid L hnd u t2 a b hL, ?_⟩
      exact ih (u ++ [a]) (by rw [hL]; simp) (by simp)

lemma ChainTo_congr :
    ∀ (s : List ℕ) (t : ℕ) (f g : ℕ → Option ℕ),
      (∀ a ∈ s, f a = g a) → ChainTo f s t → ChainTo g s t := by
  intro s
  induction s with
  | nil => intro t f g _ _; trivial
  | cons a u ih =>
    intro t f g hfg hc
    cases u with
    | nil =>
      show g a = some t
      rw [← hfg a (List.mem_cons_self a [])]
      exact hc
    | cons b u2 =>
      obtain ⟨h1, h2⟩ := hc
      refine ⟨?_, ?_⟩
      · rw [← hfg a (List.mem_cons_self a _)]
        exact h1
      · exact ih t f g (fun x hx => hfg x (List.mem_cons_of_mem a hx)) h2

lemma buildEdge_of_encoding (n : ℕ) (X : ℕ → ℕ → ℚ) (l : List ℕ)
    (hnd : l.Nodup) (hlen : 1 < l.length) (hmem : ∀ x, x ∈ l ↔ x < n)
    (henc : ∀ i j, i < n → j < n → (1 / 2 < X i j ↔ CycSucc l i = some j)) :
    ∀ i, i < n → buildEdge n X i = CycSucc l i := by
  intro i hi
  obtain ⟨y, hy, hyl, hne⟩ := cycSucc_spec l hnd hlen ((hmem i).mpr hi)
  rw [hy]
  unfold buildEdge
  refine foldl_if_unique (List.range n) none y
    (List.mem_range.mpr ((hmem y).mp hyl)) ?_
  intro j hj
  constructor
  · rintro ⟨_, hgt⟩
    have hcs := (henc i j hi (List.mem_range.mp hj)).mp hgt
    rw [hy] at hcs
    exact (Option.some.inj hcs).symm
  · rintro rfl
    exact ⟨hne, (henc i j hi (List.mem_range.mp hj)).mpr hy⟩

/-- C3 (confirmed): if the assignment matrix encodes a single Hamiltonian
cycle through node 0 — a permutation `l` of the nodes starting at 0, of
length greater than 1, with value above the 0.5 threshold exactly on the
cyclic successor pairs of `l` — then the reconstructor returns `l ++ [0]`:
a sequence of length `n + 1` starting and ending at node 0 that visits
every other node exactly once. -/
theorem claim_C3 (n : ℕ) (X : ℕ → ℕ → ℚ) (l : List ℕ)
    (hlen : 1 < l.length) (hperm : l.Perm (List.range n)) (hhead : l.head? = some 0)
    (henc : ∀ i j, i < n → j < n → (1 / 2 < X i j ↔ CycSucc l i = some j)) :
    extract_tour_of_matrix n X = l ++ [0] ∧
    (extract_tour_of_matrix n X).length = n + 1 ∧
    (extract_tour_of_matrix n X).head? = some 0 ∧
    (extract_tour_of_matrix n X).getLast? = some 0 ∧
    (∀ v, 0 < v → v < n → (extract_tour_of_matrix n X).count v = 1) ∧
    (extract_tour_of_matrix n X).count 0 = 2 := by
  have hnd : l.Nodup := hperm.symm.nodup (List.nodup_range n)
  have hmem : ∀ x, x ∈ l ↔ x < n := fun x => by rw [hperm.mem_iff, List.mem_range]
  obtain ⟨p, hp⟩ : ∃ p, l = 0 :: p := by
    cases l with
    | nil => simp at hhead
    | cons a t =>
      have ha : a = 0 := by simpa using hhead
      exact ⟨t, by rw [ha]⟩
  have hlength : l.length = n := hperm.length_eq.trans (List.length_range n)
  have hbe := buildEdge_of_encoding n X l hnd hlen hmem henc
  have hlne : l ≠ [] := by
    rw [hp]
    simp
  have hheadI : l.headI = 0 := by
    rw [hp]
    rfl
  have hchainCyc : ChainTo (CycSucc l) l 0 := by
    rw [← hheadI]
    exact chainTo_cycSucc_suffix l hnd l [] rfl hlne
  have hchain : ChainTo (buildEdge n X) l 0 := by
    refine ChainTo_congr l 0 (CycSucc l) (buildEdge n X) ?_ hchainCyc
    intro a ha
    exact (hbe a ((hmem a).mp ha)).symm
  have h0l : 0 ∈ l := by
    rw [hp]
    exact List.mem_cons_self 0 p
  have h0n : 0 < n := (hmem 0).mp h0l
  obtain ⟨y, hy, _, _⟩ := cycSucc_spec l hnd hlen h0l
  have hsucc0 : buildEdge n X 0 = some y := by
    rw [hbe 0 h0n, hy]
  have htrace : followLoop (buildEdge n X) n 0 [] = l := by
    rw [hp]
    refine followLoop_trace (buildEdge n X) 0 p 0 [] n (hp ▸ hnd) (by simp)
      (hp ▸ hchain) (Or.inl (List.mem_cons_self 0 p)) ?_
    rw [← hp, hlength]
  have hmain : extract_tour_of_matrix n X = l ++ [0] := by
    unfold extract_tour_of_matrix extract_tour
    rw [hsucc0]
    dsimp only
    rw [htrace, hlength, if_pos rfl]
  refine ⟨hmain, ?_, ?_, ?_, ?_, ?_⟩
  · rw [hmain]
    simp [hlength]
  · rw [hmain, hp]
    rfl
  · rw [hmain]
    exact List.getLast?_concat l
  · intro v hv0 hvn
    rw [hmain, List.count_append]
    have h1 : l.count v = 1 := List.count_eq_one_of_mem hnd ((hmem v).mpr hvn)
    have hvne : v ≠ 0 := by omega
    have h2 : ([0] : List ℕ).count v = 0 := by simp [hvne]
    rw [h1, h2]
  · rw [hmain, List.count_append]
    have h1 : l.count 0 = 1 := List.count_eq_one_of_mem hnd h0l
    have h2 : ([0] : List ℕ).count 0 = 1 := by simp
    rw [h1, h2]

/-- The 4-cycle `0 → 1 → 2 → 3 → 0` of the concrete scenario in the spec. -/
def cyc4 : List ℕ := [0, 1, 2, 3]

/-- Assignment matrix encoding exactly the cycle `cyc4` (value 1 on its
cyclic successor pairs, 0 elsewhere). -/
def cycX : ℕ → ℕ → ℚ := fun i j => if CycSucc cyc4 i = some j then 1 else 0

/-- Witness for C3: on the 4-node cycle the reconstructor returns
`[0, 1, 2, 3, 0]`. -/
theorem claim_C3_witness :
    extract_tour_of_matrix 4 cycX = [0, 1, 2, 3, 0] ∧
    (extract_tour_of_matrix 4 cycX).length = 5 ∧
    (extract_tour_of_matrix 4 cycX).head? = some 0 ∧
    (extract_tour_of_matrix 4 cycX).getLast? = some 0 := by
  have henc : ∀ i j, i < 4 → j < 4 → (1 / 2 < cycX i j ↔ CycSucc cyc4 i = some j) := by
    intro i j _ _
    unfold cycX
    by_cases hc : CycSucc cyc4 i = some j
    · rw [if_pos hc]
      constructor
      · intro _
        exact hc
      · intro _
        norm_num
    · rw [if_neg hc]
      constructor
      · intro habs
        norm_num at habs
      · intro h
        exact absurd h hc
  have h := claim_C3 4 cycX cyc4 (by decide) (by decide) rfl henc
  exact ⟨h.1, h.2.1, h.2.2.1, h.2.2.2.1⟩

lemma sqDist_comm (p q : ℚ × ℚ) : sqDist p q = sqDist q p := by
  unfold sqDist
  ring

lemma sqDist_nonneg (p q : ℚ × ℚ) : 0 ≤ sqDist p q := by
  unfold sqDist
  positivity

lemma vrpEntry_symm (coords : ℕ → Option (ℚ × ℚ)) (i j : ℕ) :
    vrpEntry coords i j = vrpEntry coords j i := by
  unfold vrpEntry
  by_cases hij : i = j
  · subst hij
    rfl
  · rw [if_neg hij, if_neg (Ne.symm hij)]
    cases coords (i + 1) <;> cases coords (j + 1) <;> simp [sqDist_comm]

lemma tspEntry_symm (coords : ℕ → Option (ℚ × ℚ)) (i j : ℕ) :
    tspEntry coords i j = tspEntry coords j i := by
  unfold tspEntry
  by_cases hij : i = j
  · subst hij
    rfl
  · rw [if_neg hij, if_neg (Ne.symm hij)]
    cases coords i <;> cases coords j <;> simp [sqDist_comm]

/-- C4 (confirmed): every distance matrix computed by either builder is
symmetric with a zero diagonal. -/
theorem claim_C4 (n : ℕ) (coords coords2 : ℕ → Option (ℚ × ℚ))
    (m m2 : List (List ℕ))
    (h : compute_distance_matrix n coords = some m)
    (h2 : loadTspMatrix n coords2 = some m2) :
    ∀ i j, i < n → j < n →
      entryOf m i j = entryOf m j i ∧ entryOf m i i = 0 ∧
      entryOf m2 i j = entryOf m2 j i ∧ entryOf m2 i i = 0 := by
  have hv : matrixOf n (vrpEntry coords) = some m := h
  have ht : matrixOf n (tspEntry coords2) = some m2 := h2
  intro i j hi hj
  refine ⟨?_, ?_, ?_, ?_⟩
  · have e1 := matrixOf_entry hv hi hj
    have e2 := matrixOf_entry hv hj hi
    rw [vrpEntry_symm coords i j, e2] at e1
    exact (Option.some.inj e1).symm
  · have e3 := matrixOf_entry hv hi hi
    have hdiag : vrpEntry coords i i = some 0 := if_pos rfl
    rw [hdiag] at e3
    exact (Option.some.inj e3).symm
  · have e1 := matrixOf_entry ht hi hj
    have e2 := matrixOf_entry ht hj hi
    rw [tspEntry_symm coords2 i j, e2] at e1
    exact (Option.some.inj e1).symm
  · have e3 := matrixOf_entry ht hi hi
    have hdiag : tspEntry coords2 i i = some 0 := if_pos rfl
    rw [hdiag] at e3
    exact (Option.some.inj e3).symm

lemma roundHalfUpSqrt_zero : roundHalfUpSqrt 0 = 0 := by
  unfold roundHalfUpSqrt twiceSqrtFloor
  have h : ⌊(4 : ℚ) * 0⌋ = 0 := by norm_num
  rw [h]
  rfl

lemma no_tie_zero : ∀ m : ℕ, 4 * (0 : ℚ) ≠ (2 * (m : ℚ) + 1) ^ 2 := by
  intro m hm
  have h1 : (0 : ℚ) ≤ (m : ℚ) := Nat.cast_nonneg m
  nlinarith

lemma roundHalfEvenSqrt_zero : roundHalfEvenSqrt 0 = 0 := by
  rw [roundHalfEvenSqrt_eq_of_no_tie 0 no_tie_zero, roundHalfUpSqrt_zero]

lemma matrixOf_two (e : ℕ → ℕ → Option ℕ) (a b c d : ℕ)
    (h00 : e 0 0 = some a) (h01 : e 0 1 = some b)
    (h10 : e 1 0 = some c) (h11 : e 1 1 = some d) :
    matrixOf 2 e = some [[a, b], [c, d]] := by
  unfold matrixOf
  have hr : List.range 2 = [0, 1] := rfl
  rw [hr]
  simp [optList, h00, h01, h10, h11]

lemma vrpEntry_same_point (coords : ℕ → Option (ℚ × ℚ)) (i j : ℕ)
    (hci : coords (i + 1) = some (0, 0)) (hcj : coords (j + 1) = some (0, 0)) :
    vrpEntry coords i j = some 0 := by
  unfold vrpEntry
  by_cases hij : i = j
  · rw [if_pos hij]
  · rw [if_neg hij, hci, hcj]
    dsimp only
    have hs : sqDist ((0 : ℚ), (0 : ℚ)) (0, 0) = 0 := by
      unfold sqDist
      norm_num
    rw [hs, roundHalfUpSqrt_zero]

lemma tspEntry_same_point (coords : ℕ → Option (ℚ × ℚ)) (i j : ℕ)
    (hci : coords i = some (0, 0)) (hcj : coords j = some (0, 0)) :
    tspEntry coords i j = some 0 := by
  unfold tspEntry
  by_cases hij : i = j
  · rw [if_pos hij]
  · rw [if_neg hij, hci, hcj]
    dsimp only
    have hs : sqDist ((0 : ℚ), (0 : ℚ)) (0, 0) = 0 := by
      unfold sqDist
      norm_num
    rw [hs, roundHalfEvenSqrt_zero]

/-- Two coincident points as a 1-indexed VRP coordinate map. -/
def cpair : ℕ → Option (ℚ × ℚ) := fun i =>
  if i = 1 ∨ i = 2 then some (0, 0) else none

/-- Two coincident points as a 0-indexed TSP coordinate map. -/
def cpair0 : ℕ → Option (ℚ × ℚ) := fun i =>
  if i = 0 ∨ i = 1 then some (0, 0) else none

lemma vrp_matrix_cpair : compute_distance_matrix 2 cpair = some [[0, 0], [0, 0]] :=
  matrixOf_two _ 0 0 0 0
    (vrpEntry_same_point cpair 0 0 rfl rfl)
    (vrpEntry_same_point cpair 0 1 rfl rfl)
    (vrpEntry_same_point cpair 1 0 rfl rfl)
    (vrpEntry_same_point cpair 1 1 rfl rfl)

lemma load_matrix_cpair0 : loadTspMatrix 2 cpair0 = some [[0, 0], [0, 0]] :=
  matrixOf_two _ 0 0 0 0
    (tspEntry_same_point cpair0 0 0 rfl rfl)
    (tspEntry_same_point cpair0 0 1 rfl rfl)
    (tspEntry_same_point cpair0 1 0 rfl rfl)
    (tspEntry_same_point cpair0 1 1 rfl rfl)

/-- Witness for C4 on two concrete two-node instances. -/
theorem claim_C4_witness :
    entryOf [[0, 0], [0, 0]] 0 1 = entryOf [[0, 0], [0, 0]] 1 0 ∧
    entryOf [[0, 0], [0, 0]] 0 0 = 0 ∧
    entryOf [[0, 0], [0, 0]] 0 1 = entryOf [[0, 0], [0, 0]] 1 0 ∧
    entryOf [[0, 0], [0, 0]] 0 0 = 0 :=
  claim_C4 2 cpair cpair0 [[0, 0], [0, 0]] [[0, 0], [0, 0]]
    vrp_matrix_cpair load_matrix_cpair0 0 1 (by norm_num) (by norm_num)

/-- C1 (corrected): the `VRPDataReader.compute_distance_matrix` path does
round the exact Euclidean distance half-up; but the `load_tsp_instance`
path uses the Python built-in `round`, i.e. half-to-even, which agrees with
half-up except when the exact distance is a half-integer (when `4·d²` is an
odd perfect square) and there rounds to the even neighbour instead.  The
original claim that every matrix-building code path rounds half-up is
false, see the counterexample. -/
theorem claim_C1_amended :
    (∀ n coords m i j ci cj, compute_distance_matrix n coords = some m →
      i < n → j < n → i ≠ j → coords (i + 1) = some ci → coords (j + 1) = some cj →
      entryOf m i j = roundHalfUpSqrt (sqDist ci cj) ∧
        HalfUpRoundOfSqrt (entryOf m i j) (sqDist ci cj)) ∧
    (∀ s : ℚ, 0 ≤ s → (∀ k : ℕ, 4 * s ≠ (2 * (k : ℚ) + 1) ^ 2) →
      roundHalfEvenSqrt s = roundHalfUpSqrt s) ∧
    (∀ n coords m i j ci cj, loadTspMatrix n coords = some m →
      i < n → j < n → i ≠ j → coords i = some ci → coords j = some cj →
      entryOf m i j = roundHalfEvenSqrt (sqDist ci cj)) := by
  refine ⟨?_, fun s _ hk => roundHalfEvenSqrt_eq_of_no_tie s hk, ?_⟩
  · intro n coords m i j ci cj h hi hj hij hci hcj
    have hv : matrixOf n (vrpEntry coords) = some m := h
    have he := matrixOf_entry hv hi hj
    have hval : vrpEntry coords i j = some (roundHalfUpSqrt (sqDist ci cj)) := by
      unfold vrpEntry
      rw [if_neg hij, hci, hcj]
    rw [hval] at he
    have heq : entryOf m i j = roundHalfUpSqrt (sqDist ci cj) := (Option.some.inj he).symm
    refine ⟨heq, ?_⟩
    rw [heq]
    exact roundHalfUpSqrt_spec _ (sqDist_nonneg ci cj)
  · intro n coords m i j ci cj h hi hj hij hci hcj
    have ht : matrixOf n (tspEntry coords) = some m := h
    have he := matrixOf_entry ht hi hj
    have hval : tspEntry coords i j = some (roundHalfEvenSqrt (sqDist ci cj)) := by
      unfold tspEntry
      rw [if_neg hij, hci, hcj]
    rw [hval] at he
    exact (Option.some.inj he).symm

/-- Witness for C1 on the concrete two-node instances used for C4. -/
theorem claim_C1_witness :
    entryOf [[0, 0], [0, 0]] 0 1 = roundHalfUpSqrt (sqDist (0, 0) (0, 0)) ∧
    roundHalfEvenSqrt 0 = roundHalfUpSqrt 0 ∧
    entryOf [[0, 0], [0, 0]] 0 1 = roundHalfEvenSqrt (sqDist (0, 0) (0, 0)) :=
  ⟨(claim_C1_amended.1 2 cpair [[0, 0], [0, 0]] 0 1 (0, 0) (0, 0)
      vrp_matrix_cpair (by norm_num) (by norm_num) (by omega) rfl rfl).1,
    claim_C1_amended.2.1 0 le_rfl no_tie_zero,
    claim_C1_amended.2.2 2 cpair0 [[0, 0], [0, 0]] 0 1 (0, 0) (0, 0)
      load_matrix_cpair0 (by norm_num) (by norm_num) (by omega) rfl rfl⟩

lemma tspEntry_eval (coords : ℕ → Option (ℚ × ℚ)) (i j : ℕ) (ci cj : ℚ × ℚ)
    (hij : i ≠ j) (hci : coords i = some ci) (hcj : coords j = some cj) :
    tspEntry coords i j = some (roundHalfEvenSqrt (sqDist ci cj)) := by
  unfold tspEntry
  rw [if_neg hij, hci, hcj]

lemma sqDist_tie : sqDist ((0 : ℚ), (0 : ℚ)) (3 / 2, 2) = 25 / 4 := by
  unfold sqDist
  norm_num

lemma sqDist_tie_rev : sqDist ((3 / 2 : ℚ), (2 : ℚ)) (0, 0) = 25 / 4 := by
  unfold sqDist
  norm_num

lemma roundHalfUpSqrt_tie : roundHalfUpSqrt (25 / 4) = 3 := by
  unfold roundHalfUpSqrt twiceSqrtFloor
  have h : ⌊(4 : ℚ) * (25 / 4)⌋ = 25 := by norm_num
  rw [h]
  have h2 : (Int.toNat 25) = 25 := rfl
  rw [h2]
  have h3 : Nat.sqrt 25 = 5 := by norm_num
  rw [h3]

lemma roundHalfEvenSqrt_tie : roundHalfEvenSqrt (25 / 4) = 2 := by
  unfold roundHalfEvenSqrt twiceSqrtFloor
  have h : ⌊(4 : ℚ) * (25 / 4)⌋ = 25 := by norm_num
  rw [h]
  have h2 : (Int.toNat 25) = 25 := rfl
  rw [h2]
  have h3 : Nat.sqrt 25 = 5 := by norm_num
  rw [h3]
  rw [if_pos ⟨by norm_num, by norm_num⟩]
  decide

/-- Nodes at `(0, 0)` and `(3/2, 2)`: their Euclidean distance is exactly
`5/2` (both coordinates and the distance are exactly representable in
binary floating point, so the Python code hits this tie exactly). -/
def tieCoords : ℕ → Option (ℚ × ℚ) := fun i =>
  if i = 0 then some (0, 0) else if i = 1 then some (3 / 2, 2) else none

/-- C1 counterexample: on the two nodes at `(0,0)` and `(3/2, 2)` the
`load_tsp_instance` distance matrix holds entry 2 (Python `round(2.5)`
rounds half to even), while half-up rounding of the same distance is 3 —
so not every matrix-building code path rounds half-up. -/
theorem claim_C1_counterexample :
    loadTspMatrix 2 tieCoords = some [[0, 2], [2, 0]] ∧
    roundHalfUpSqrt (sqDist (0, 0) (3 / 2, 2)) = 3 ∧
    entryOf [[0, 2], [2, 0]] 0 1 = 2 := by
  refine ⟨?_, ?_, rfl⟩
  · refine matrixOf_two _ 0 2 2 0 rfl ?_ ?_ rfl
    · rw [tspEntry_eval tieCoords 0 1 (0, 0) (3 / 2, 2) (by omega) rfl rfl,
        sqDist_tie, roundHalfEvenSqrt_tie]
    · rw [tspEntry_eval tieCoords 1 0 (3 / 2, 2) (0, 0) (by omega) rfl rfl,
        sqDist_tie_rev, roundHalfEvenSqrt_tie]
  · rw [sqDist_tie, roundHalfUpSqrt_tie]

/-- C7 (corrected): if some node id in `[1, dimension]` lacks a coordinate
and the instance has at least two nodes, building the distance matrix
fails with a lookup failure (the `KeyError` propagates; no matrix is
produced).  The original claim fails for one-node instances, where the
distance loop never looks any coordinate up — see the counterexample. -/
theorem claim_C7_amended (n : ℕ) (coords : ℕ → Option (ℚ × ℚ))
    (hn : 2 ≤ n) (i0 : ℕ) (h1 : 1 ≤ i0) (h2 : i0 ≤ n) (hmiss : coords i0 = none) :
    compute_distance_matrix n coords = none := by
  unfold compute_distance_matrix matrixOf
  have hij : (i0 - 1) ≠ (if i0 - 1 = 0 then 1 else 0) ∧
      (if i0 - 1 = 0 then 1 else 0) < n ∧ i0 - 1 < n := by
    split <;> omega
  obtain ⟨hne, hjn, hin⟩ := hij
  have hentry : vrpEntry coords (i0 - 1) (if i0 - 1 = 0 then 1 else 0) = none := by
    unfold vrpEntry
    rw [if_neg hne]
    have hplus : i0 - 1 + 1 = i0 := by omega
    rw [hplus, hmiss]
  have hrow : optList ((List.range n).map fun jj => vrpEntry coords (i0 - 1) jj) = none := by
    apply optList_eq_none
    exact List.mem_map.mpr ⟨_, List.mem_range.mpr hjn, hentry⟩
  apply optList_eq_none
  exact List.mem_map.mpr ⟨i0 - 1, List.mem_range.mpr hin, hrow⟩

/-- Witness for C7: two nodes, no coordinates at all. -/
theorem claim_C7_witness : compute_distance_matrix 2 (fun _ => none) = none :=
  claim_C7_amended 2 (fun _ => none) (by norm_num) 1 (by norm_num) (by norm_num) rfl

/-- C7 counterexample: a one-node instance whose single node (id 1, which
the dimension references) has no coordinate still produces the matrix
`[[0]]` — the loop body is guarded by `i != j` and never performs a
lookup, so nothing fails. -/
theorem claim_C7_counterexample :
    compute_distance_matrix 1 (fun _ => none) = some [[0]] ∧
    (fun _ => (none : Option (ℚ × ℚ))) 1 = none :=
  ⟨rfl, rfl⟩

lemma take_range' : ∀ (m k s : ℕ), (List.range' s m).take k = List.range' s (min k m) := by
  intro m
  induction m with
  | zero =>
    intro k s
    cases k <;> rfl
  | succ m ih =>
    intro k s
    cases k with
    | zero => rfl
    | succ k =>
      rw [List.range'_succ]
      have hmin : min (k + 1) (m + 1) = min k m + 1 := by omega
      rw [hmin, List.range'_succ]
      simp only [List.take_succ_cons]
      rw [ih k (s + 1)]

/-- Follows the wording of the spec for C5: the non-depot node ids of the parent,
in ascending order, are `[2, ..., dim]`; the described selection takes the
depot plus the first `K - 1` of them, or the first `K` of them. -/
def specNonDepotIds (dim : ℕ) : List ℕ := List.range' 2 (dim - 1)

/-- C5 (corrected): the selection equals the described behaviour — depot
plus the first `min K dim - 1` non-depot ids in ascending order, or the
first `min K (dim - 1)` non-depot ids — `K` being silently clamped, and
the depot, when included, re-indexed to position 0.  The original claim
fails only for a zero-dimension parent with the depot requested, where the
extractor raises (IndexError) instead of clamping silently — see the
counterexample; the clamped-length facts below therefore assume one node
when the depot is included. -/
theorem claim_C5_amended (dim K : ℕ) (dep : Bool) (hdim : dep = true → 1 ≤ dim) :
    (selected_nodes dim K dep =
      if dep then 1 :: (specNonDepotIds dim).take (min K dim - 1)
      else (specNonDepotIds dim).take (min K (dim - 1))) ∧
    (dep = true → dim ≤ K → (selected_nodes dim K dep).length = dim) ∧
    (dep = false → dim - 1 ≤ K → (selected_nodes dim K dep).length = dim - 1) ∧
    (dep = true → (selected_nodes dim K dep).get? 0 = some 1) := by
  refine ⟨?_, ?_, ?_, ?_⟩
  · unfold selected_nodes specNonDepotIds
    cases dep with
    | false =>
      simp only [Bool.false_eq_true, if_false]
      rw [take_range']
      congr 1
      omega
    | true =>
      simp only [if_true]
      rw [take_range']
      have : min (min K dim - 1) (dim - 1) = min K dim - 1 := by omega
      rw [this]
  · intro h hK
    subst h
    have h1 : 1 ≤ dim := hdim rfl
    unfold selected_nodes
    simp only [if_true, List.length_cons, List.length_range']
    omega
  · intro h hK
    subst h
    unfold selected_nodes
    simp only [Bool.false_eq_true, if_false, List.length_range']
    omega
  · intro h
    subst h
    rfl

/-- Witness for C5 on a five-node parent. -/
theorem claim_C5_witness :
    selected_nodes 5 3 true =
      (if true then 1 :: (specNonDepotIds 5).take (min 3 5 - 1)
       else (specNonDepotIds 5).take (min 3 (5 - 1))) ∧
    (selected_nodes 5 3 true).get? 0 = some 1 ∧
    (selected_nodes 5 5 false).length = 5 - 1 ∧
    (selected_nodes 5 5 true).length = 5 :=
  ⟨(claim_C5_amended 5 3 true fun _ => by norm_num).1,
    (claim_C5_amended 5 3 true fun _ => by norm_num).2.2.2 rfl,
    (claim_C5_amended 5 5 false fun _ => by norm_num).2.2.1 rfl (by norm_num),
    (claim_C5_amended 5 5 true fun _ => by norm_num).2.1 rfl (by norm_num)⟩

/-- C5 counterexample: a zero-dimension parent (whose distance matrix does
compute, as the empty matrix) with the depot requested makes the extractor
fail (the slice `self.distance_matrix[0][0]` raises IndexError) instead of
silently clamping: `K = 1` is clamped to 0 yet node 1 is still selected. -/
theorem claim_C5_counterexample :
    extract_tsp_subset 0 (fun _ => none) [] 1 true = none ∧
    selected_nodes 0 1 true = [1] ∧
    compute_distance_matrix 0 (fun _ => none) = some [] :=
  ⟨rfl, rfl, rfl⟩

lemma extract_tsp_subset_eq {dim K : ℕ} {dep : Bool} {coords : ℕ → Option (ℚ × ℚ)}
    {M : List (List ℕ)} {sub : TspSubset}
    (h : extract_tsp_subset dim coords M K dep = some sub) :
    sub.original_vrp_nodes = selected_nodes dim K dep ∧
    sub.dimension = (selected_nodes dim K dep).length ∧
    sub.coordinates = (fun i => ((selected_nodes dim K dep).get? i).bind coords) ∧
    ∃ dm, sliceMatrix M (selected_nodes dim K dep) = some dm ∧
      sub.distance_matrix = dm := by
  unfold extract_tsp_subset at h
  dsimp only at h
  cases hs : sliceMatrix M (selected_nodes dim K dep) with
  | none =>
    rw [hs] at h
    simp at h
  | some dm =>
    rw [hs] at h
    have h2 := Option.some.inj h
    rw [← h2]
    exact ⟨rfl, rfl, rfl, dm, rfl, rfl⟩

lemma matrixOf_length {n : ℕ} {entry : ℕ → ℕ → Option ℕ} {m : List (List ℕ)}
    (h : matrixOf n entry = some m) : m.length = n := by
  have := optList_length h
  simpa using this

lemma sliceMatrix_row_isSome {M : List (List ℕ)} {sel : List ℕ} {dm : List (List ℕ)}
    (h : sliceMatrix M sel = some dm) : ∀ a ∈ sel, (M.get? (a - 1)).isSome := by
  intro a ha
  unfold sliceMatrix at h
  have helem := optList_isSome_of_mem h (List.mem_map.mpr ⟨a, ha, rfl⟩)
  obtain ⟨rowl, hrow⟩ := Option.isSome_iff_exists.mp helem
  have hcell := optList_isSome_of_mem hrow (List.mem_map.mpr ⟨a, ha, rfl⟩)
  cases hM : M.get? (a - 1) with
  | none =>
    rw [hM] at hcell
    simp at hcell
  | some _ => rfl

lemma selected_nodes_nodup (dim K : ℕ) (dep : Bool) :
    (selected_nodes dim K dep).Nodup := by
  unfold selected_nodes
  cases dep with
  | false =>
    simp only [Bool.false_eq_true, if_false]
    exact List.nodup_range' 2 _
  | true =>
    simp only [if_true]
    refine List.nodup_cons.mpr ⟨?_, List.nodup_range' 2 _⟩
    intro h1
    have := (List.mem_range'_1.mp h1).1
    omega

lemma selected_nodes_pos (dim K : ℕ) (dep : Bool) :
    ∀ id ∈ selected_nodes dim K dep, 1 ≤ id := by
  unfold selected_nodes
  cases dep with
  | false =>
    simp only [Bool.false_eq_true, if_false]
    intro id hid
    have := (List.mem_range'_1.mp hid).1
    omega
  | true =>
    simp only [if_true]
    intro id hid
    rcases List.mem_cons.mp hid with h | h
    · omega
    · have := (List.mem_range'_1.mp h).1
      omega

lemma selected_nodes_le (dim K : ℕ) (dep : Bool) (h1 : 1 ≤ dim) :
    ∀ id ∈ selected_nodes dim K dep, id ≤ dim := by
  have hm : min K dim ≤ dim := min_le_right K dim
  have hm2 : min K (dim - 1) ≤ dim - 1 := min_le_right K (dim - 1)
  unfold selected_nodes
  cases dep with
  | false =>
    simp only [Bool.false_eq_true, if_false]
    intro id hid
    have := List.mem_range'_1.mp hid
    omega
  | true =>
    simp only [if_true]
    intro id hid
    rcases List.mem_cons.mp hid with h | h
    · omega
    · have := List.mem_range'_1.mp h
      omega

lemma nodup_unique_index {l : List ℕ} (hnd : l.Nodup) {x : ℕ} (hx : x ∈ l) :
    ∃! i, i < l.length ∧ l.get? i = some x := by
  obtain ⟨i, hgi⟩ := List.mem_iff_get.mp hx
  refine ⟨(i : ℕ), ⟨i.isLt, ?_⟩, ?_⟩
  · rw [List.get?_eq_get i.isLt]
    exact congrArg some (by simpa using hgi)
  · rintro j ⟨hj, hgj⟩
    rw [List.get?_eq_get hj] at hgj
    have hgj2 : l.get ⟨j, hj⟩ = x := Option.some.inj hgj
    have hinj := List.nodup_iff_injective_get.mp hnd
    have heq : (⟨j, hj⟩ : Fin l.length) = i := hinj (by rw [hgj2, hgi])
    exact congrArg Fin.val heq

/-- C9 (confirmed): for every sub-instance the extractor actually produces,
the `original_vrp_nodes` table is duplicate-free, of length equal to the
sub-instance dimension (so index ↦ id is a bijection between
`[0, sub-size)` and the subset in selection order), and every entry is a
valid 1-indexed node id of the parent instance. -/
theorem claim_C9 (dim K : ℕ) (dep : Bool) (coords : ℕ → Option (ℚ × ℚ))
    (M : List (List ℕ)) (sub : TspSubset)
    (hM : compute_distance_matrix dim coords = some M)
    (hsub : extract_tsp_subset dim coords M K dep = some sub) :
    sub.original_vrp_nodes.Nodup ∧
    sub.original_vrp_nodes.length = sub.dimension ∧
    (∀ id ∈ sub.original_vrp_nodes, 1 ≤ id ∧ id ≤ dim) ∧
    (∀ id ∈ sub.original_vrp_nodes, ∃! i, i < sub.original_vrp_nodes.length ∧
      sub.original_vrp_nodes.get? i = some id) := by
  obtain ⟨hnodes, hdims, _, dm, hdm, _⟩ := extract_tsp_subset_eq hsub
  have hMlen : M.length = dim := matrixOf_length hM
  have hid : ∀ id ∈ selected_nodes dim K dep, 1 ≤ id ∧ id ≤ dim := by
    intro id hmem
    have h1 : 1 ≤ id := selected_nodes_pos dim K dep id hmem
    have hrow := sliceMatrix_row_isSome hdm id hmem
    have hlt : id - 1 < M.length := by
      by_contra hge
      rw [List.get?_eq_none.mpr (by omega)] at hrow
      simp at hrow
    omega
  rw [hnodes, hdims]
  refine ⟨selected_nodes_nodup dim K dep, rfl, hid, ?_⟩
  intro id hmem
  exact nodup_unique_index (selected_nodes_nodup dim K dep) hmem

/-- Witness for C9 on a concrete two-node parent. -/
theorem claim_C9_witness :
    ([1, 2] : List ℕ).Nodup ∧ (∀ id ∈ ([1, 2] : List ℕ), 1 ≤ id ∧ id ≤ 2) := by
  have hsub : extract_tsp_subset 2 cpair [[0, 0], [0, 0]] 2 true =
      some ⟨2, fun i => (([1, 2] : List ℕ).get? i).bind cpair,
        [[0, 0], [0, 0]], [1, 2], true⟩ := rfl
  have h := claim_C9 2 2 true cpair [[0, 0], [0, 0]] _ vrp_matrix_cpair hsub
  exact ⟨h.1, h.2.2.1⟩

lemma vrp_coords_present {n : ℕ} {coords : ℕ → Option (ℚ × ℚ)} {m : List (List ℕ)}
    (h : compute_distance_matrix n coords = some m) (hn : 2 ≤ n) :
    ∀ id, 1 ≤ id → id ≤ n → (coords id).isSome := by
  intro id h1 h2
  have hv : matrixOf n (vrpEntry coords) = some m := h
  have hbounds : (id - 1) ≠ (if id - 1 = 0 then 1 else 0) ∧
      (if id - 1 = 0 then 1 else 0) < n ∧ id - 1 < n := by
    split <;> omega
  obtain ⟨hne, hjn, hin⟩ := hbounds
  have he := matrixOf_entry hv hin hjn
  unfold vrpEntry at he
  rw [if_neg hne] at he
  have hplus : id - 1 + 1 = id := by omega
  rw [hplus] at he
  cases hc : coords id with
  | none =>
    rw [hc] at he
    simp at he
  | some _ => rfl

lemma load_coords_present {n : ℕ} {coords : ℕ → Option (ℚ × ℚ)} {m : List (List ℕ)}
    (h : loadTspMatrix n coords = some m) (hn : 2 ≤ n) :
    ∀ i, i < n → (coords i).isSome := by
  intro i hi
  have ht : matrixOf n (tspEntry coords) = some m := h
  have hbounds : i ≠ (if i = 0 then 1 else 0) ∧ (if i = 0 then 1 else 0) < n := by
    split <;> omega
  obtain ⟨hne, hjn⟩ := hbounds
  have he := matrixOf_entry ht hi hjn
  unfold tspEntry at he
  rw [if_neg hne] at he
  cases hc : coords i with
  | none =>
    rw [hc] at he
    simp at he
  | some _ => rfl

/-- C8 (corrected): the coordinate-completeness invariant holds for every
loaded TSP record of dimension at least 2, and for every extracted
sub-instance of a parent of dimension at least 2 whose matrix computation
succeeded.  The original unconditional claim fails: a one-node loaded file
with no coordinate line still produces a record (no lookup ever runs), see
the counterexample; a bare parsed instance is likewise unvalidated. -/
theorem claim_C8_amended :
    (∀ n coords r, 2 ≤ n → load_tsp_instance n coords = some r →
      ∀ i, i < r.dimension → (r.coordinates i).isSome) ∧
    (∀ dim coords M K dep sub, 2 ≤ dim →
      compute_distance_matrix dim coords = some M →
      extract_tsp_subset dim coords M K dep = some sub →
      ∀ i, i < sub.dimension → (sub.coordinates i).isSome) := by
  constructor
  · intro n coords r hn hr i hi
    unfold load_tsp_instance at hr
    cases hm : loadTspMatrix n coords with
    | none =>
      rw [hm] at hr
      simp at hr
    | some m =>
      rw [hm] at hr
      have h2 := Option.some.inj hr
      rw [← h2] at hi ⊢
      exact load_coords_present hm hn i hi
  · intro dim coords M K dep sub hdim hM hsub i hi
    obtain ⟨_, hdims, hcoords, dm, hdm, _⟩ := extract_tsp_subset_eq hsub
    rw [hcoords]
    rw [hdims] at hi
    have hget := List.get?_eq_get hi
    have hmem : (selected_nodes dim K dep).get ⟨i, hi⟩ ∈ selected_nodes dim K dep :=
      List.get_mem _ _ _
    obtain ⟨ha1, ha2⟩ : 1 ≤ (selected_nodes dim K dep).get ⟨i, hi⟩ ∧
        (selected_nodes dim K dep).get ⟨i, hi⟩ ≤ dim :=
      ⟨selected_nodes_pos dim K dep _ hmem,
        selected_nodes_le dim K dep (by omega) _ hmem⟩
    have hpres := vrp_coords_present hM hdim _ ha1 ha2
    dsimp only
    rw [hget]
    simpa using hpres

/-- Witness for C8 on concrete two-node instances. -/
theorem claim_C8_witness :
    (cpair0 0).isSome ∧ ((([1, 2] : List ℕ).get? 0).bind cpair).isSome := by
  have hload : load_tsp_instance 2 cpair0 =
      some ⟨2, cpair0, [[0, 0], [0, 0]]⟩ := by
    unfold load_tsp_instance
    rw [load_matrix_cpair0]
    rfl
  have hsub : extract_tsp_subset 2 cpair [[0, 0], [0, 0]] 2 true =
      some ⟨2, fun i => (([1, 2] : List ℕ).get? i).bind cpair,
        [[0, 0], [0, 0]], [1, 2], true⟩ := rfl
  exact ⟨claim_C8_amended.1 2 cpair0 _ (by norm_num) hload 0 (by norm_num),
    claim_C8_amended.2 2 cpair [[0, 0], [0, 0]] 2 true _ (by norm_num)
      vrp_matrix_cpair hsub 0 (by norm_num)⟩

/-- C8 counterexample: a one-node TSP file with no coordinate entry loads
successfully (the distance loop never looks anything up), producing a
record of dimension 1 whose node 0 has no coordinate. -/
theorem claim_C8_counterexample :
    load_tsp_instance 1 (fun _ => none) = some ⟨1, fun _ => none, [[0]]⟩ ∧
    (⟨1, fun _ => none, [[0]]⟩ : TspInstance).coordinates 0 = none ∧
    0 < (⟨1, fun _ => none, [[0]]⟩ : TspInstance).dimension :=
  ⟨rfl, rfl, by norm_num⟩

/-- C10 (confirmed): with the COMMENT header absent, or present but not
matched by the respective regex, `_extract_num_vehicles` reports the
default 4 and `_extract_optimal_value` reports absence. -/
theorem claim_C10 (comment : Option (List Char)) :
    ((comment = none ∨ ∀ s, comment = some s → searchTrucks s = none) →
      extract_num_vehicles comment = 4) ∧
    ((comment = none ∨ ∀ s, comment = some s → searchOptVal s = none) →
      extract_optimal_value comment = none) := by
  constructor
  · rintro (h | h)
    · rw [h]
      rfl
    · cases comment with
      | none => rfl
      | some s =>
        unfold extract_num_vehicles
        dsimp only
        rw [h s rfl]
  · rintro (h | h)
    · rw [h]
      rfl
    · cases comment with
      | none => rfl
      | some s =>
        unfold extract_optimal_value
        exact h s rfl

/-- Witness for C10: a comment mentioning neither token yields the
defaults, as does an absent comment. -/
theorem claim_C10_witness :
    extract_num_vehicles (some ("taiwan 100" : String).toList) = 4 ∧
    extract_optimal_value none = none :=
  ⟨(claim_C10 (some ("taiwan 100" : String).toList)).1
      (Or.inr fun s hs => by rw [← Option.some.inj hs]; decide),
    (claim_C10 none).2 (Or.inl rfl)⟩

end VrpTsp
